import Mathlib

/-!
Verification of the monotonic queue library in src/src/lib.rs.

The Rust struct MonotonicQueue wraps a VecDeque.  We embed the deque as a
Lean list held in front-to-back order, and each Rust method becomes a pure
function on that state.  The eviction loop of push_by inspects the back of
the deque and pops it while the caller's predicate says it is less than the
incoming item; here the loop is the structural recursion popBackWhile on
the reversed (back-to-front) list, whose head is the deque's back.
-/

/-- Embedding of the Rust struct MonotonicQueue, whose field dq is a
VecDeque held here as a list in front-to-back order. -/
structure MonotonicQueue (T : Type) where
  dq : List T

variable {T : Type}

/-- Embedding of MonotonicQueue::new - an empty queue. -/
def MonotonicQueue.new (T : Type) : MonotonicQueue T :=
  ⟨[]⟩

/-- Embedding of MonotonicQueue::peek - self.dq.front(), a read-only view. -/
def MonotonicQueue.peek (q : MonotonicQueue T) : Option T :=
  q.dq.head?

/-- Embedding of MonotonicQueue::pop - self.dq.pop_front(), returning the
removed front element together with the updated queue state. -/
def MonotonicQueue.pop (q : MonotonicQueue T) : Option T × MonotonicQueue T :=
  match q.dq with
  | [] => (none, q)
  | x :: xs => (some x, ⟨xs⟩)

/-- The eviction loop of MonotonicQueue::push_by, acting on the deque in
back-to-front order: while there is a back element (the head of the
reversed list) and is_less existing_item item holds, pop it; else stop. -/
def popBackWhile (is_less : T → T → Bool) (item : T) : List T → List T
  | [] => []
  | b :: rest => if is_less b item then popBackWhile is_less item rest else b :: rest

/-- Embedding of MonotonicQueue::push_by - run the eviction loop at the
back of the deque, then self.dq.push_back(item). -/
def MonotonicQueue.push_by (q : MonotonicQueue T) (item : T) (is_less : T → T → Bool) :
    MonotonicQueue T :=
  ⟨(item :: popBackWhile is_less item q.dq.reverse).reverse⟩

/-- Scenario B of the spec: a less-than predicate keeps the front decreasing,
so pushing 1 then 2 evicts the 1 and peek sees 2 (the doc example of peek). -/
theorem spec_scenario_b : ((((MonotonicQueue.new Nat).push_by 1 (fun a b => decide (a < b))).push_by 2
    (fun a b => decide (a < b))).peek) = some 2 := by rfl

/-- Scenario A of the spec: a greater-than predicate keeps the front increasing,
so pushing 1 then 2 evicts nothing and peek sees 1 (the unit test of the source). -/
theorem spec_scenario_a : ((((MonotonicQueue.new Nat).push_by 1 (fun a b => decide (b < a))).push_by 2
    (fun a b => decide (b < a))).peek) = some 1 := by rfl

/-- The elements removed from the back by a single push_by call, in order of
removal (back-most first). -/
def evictedBy (q : MonotonicQueue T) (item : T) (is_less : T → T → Bool) : List T :=
  q.dq.reverse.takeWhile (fun b => is_less b item)

/-- popBackWhile is List.dropWhile of the eviction test. -/
theorem popBackWhile_eq_dropWhile (is_less : T → T → Bool) (item : T) (l : List T) :
    popBackWhile is_less item l = l.dropWhile (fun b => is_less b item) := by
  induction l with
  | nil => rfl
  | cons b rest ih =>
    by_cases hb : is_less b item = true
    · simp [popBackWhile, List.dropWhile_cons, hb, ih]
    · simp only [Bool.not_eq_true] at hb
      simp [popBackWhile, List.dropWhile_cons, hb]

/-- The deque after push_by: the surviving prefix with item appended. -/
theorem push_by_dq (q : MonotonicQueue T) (item : T) (is_less : T → T → Bool) :
    (q.push_by item is_less).dq =
      (q.dq.reverse.dropWhile (fun b => is_less b item)).reverse ++ [item] := by
  simp [MonotonicQueue.push_by, popBackWhile_eq_dropWhile]

/-- An operation on the queue: a push with a given value, or a pop. -/
inductive Op (T : Type) where
  | push : T → Op T
  | pop : Op T

/-- Apply one operation, with pushes all using the predicate is_less. -/
def MonotonicQueue.applyOp (is_less : T → T → Bool) (q : MonotonicQueue T) :
    Op T → MonotonicQueue T
  | Op.push x => q.push_by x is_less
  | Op.pop => (q.pop).2

/-- Run a sequence of operations from the empty queue, all pushes using the
same predicate is_less. -/
def runOps (is_less : T → T → Bool) (ops : List (Op T)) : MonotonicQueue T :=
  ops.foldl (MonotonicQueue.applyOp is_less) (MonotonicQueue.new T)

/-- A push_by call preserves the pairwise no-violation property of the deque:
adjacent front-to-back pairs never satisfy is_less. -/
theorem chain'_push_by (is_less : T → T → Bool) (q : MonotonicQueue T) (item : T)
    (h : q.dq.Chain' (fun a b => is_less a b = false)) :
    ((q.push_by item is_less).dq).Chain' (fun a b => is_less a b = false) := by
  have hd := List.head?_dropWhile_not (fun b => is_less b item) q.dq.reverse
  rw [MonotonicQueue.push_by, popBackWhile_eq_dropWhile]
  rw [List.chain'_reverse]
  refine List.chain'_cons'.mpr ⟨?_, ?_⟩
  · intro y hy
    rw [Option.mem_def] at hy
    rw [hy] at hd
    exact hd
  · refine List.Chain'.suffix ?_ (List.dropWhile_suffix _)
    exact List.chain'_reverse.mpr h

/-- A pop call preserves any pairwise chain property of the deque. -/
theorem chain'_pop (R : T → T → Prop) (q : MonotonicQueue T) (h : q.dq.Chain' R) :
    (((q.pop).2).dq).Chain' R := by
  obtain ⟨l⟩ := q
  cases l with
  | nil => exact h
  | cons x xs => exact h.tail

/-- Folding any operation sequence preserves the no-violation chain. -/
theorem chain'_runOps_aux (is_less : T → T → Bool) (ops : List (Op T))
    (q : MonotonicQueue T) (h : q.dq.Chain' (fun a b => is_less a b = false)) :
    ((ops.foldl (MonotonicQueue.applyOp is_less) q).dq).Chain'
      (fun a b => is_less a b = false) := by
  induction ops generalizing q with
  | nil => exact h
  | cons op rest ih =>
    refine ih _ ?_
    cases op with
    | push x => exact chain'_push_by is_less q x h
    | pop => exact chain'_pop _ q h

/-- C1: for every sequence of push_by calls using the same predicate is_less,
with arbitrary interleaved pops, starting from the empty queue, after each
step every adjacent pair (a, b) of the deque in front-to-back order has
is_less a b = false. -/
theorem monotonic_invariant (is_less : T → T → Bool) (ops : List (Op T)) :
    ((runOps is_less ops).dq).Chain' (fun a b => is_less a b = false) :=
  chain'_runOps_aux is_less ops (MonotonicQueue.new T) (by simp [MonotonicQueue.new])

/-- C5: on a newly constructed queue, peek and pop both yield none, returned
as a value of the Option type rather than a raised failure. -/
theorem new_peek_pop_none :
    (MonotonicQueue.new T).peek = none ∧
    (MonotonicQueue.new T).pop = (none, MonotonicQueue.new T) :=
  ⟨rfl, rfl⟩

/-- C6: on every non-empty queue, pop removes and returns the front-most
element (the longest-resident survivor), leaving the tail of the deque. -/
theorem pop_front (q : MonotonicQueue T) (h : q.dq ≠ []) :
    q.pop = (some (q.dq.head h), ⟨q.dq.tail⟩) := by
  obtain ⟨l⟩ := q
  cases l with
  | nil => exact absurd rfl h
  | cons x xs => rfl

theorem pop_front_witness :
    MonotonicQueue.pop (⟨[1, 2]⟩ : MonotonicQueue Nat) = (some 1, ⟨[2]⟩) :=
  pop_front ⟨[1, 2]⟩ (by simp)

/-- C7: when the back element b and the pushed item x compare equal under a
strict predicate (neither is_less b x nor is_less x b), push_by evicts
nothing: the whole deque survives and x is appended back-most. -/
theorem push_equal_keeps_back (l : List T) (b x : T) (is_less : T → T → Bool)
    (h1 : is_less b x = false) (h2 : is_less x b = false) :
    (MonotonicQueue.push_by ⟨l ++ [b]⟩ x is_less).dq = l ++ [b, x] := by
  rw [push_by_dq]
  simp [List.dropWhile_cons, h1]

theorem push_equal_keeps_back_witness :
    (MonotonicQueue.push_by (⟨[] ++ [5]⟩ : MonotonicQueue Nat) 5
      (fun a b => decide (a < b))).dq = [] ++ [5, 5] :=
  push_equal_keeps_back [] 5 5 (fun a b => decide (a < b)) (by decide) (by decide)

/-- C9: peek is read-only: it returns the head of the deque (the same value
pop would return) and, being a pure function of the state that returns only
that option, leaves the deque unchanged. -/
theorem peek_readonly (q : MonotonicQueue T) :
    q.peek = q.dq.head? ∧ q.peek = (q.pop).1 := by
  obtain ⟨l⟩ := q
  cases l with
  | nil => exact ⟨rfl, rfl⟩
  | cons x xs => exact ⟨rfl, rfl⟩

/-- C2: push_by behaves as the loop of the spec: on an empty deque the item
is simply appended; while the back element b satisfies is_less b item, b is
removed and discarded (the push continues on the shortened deque); when the
back element does not satisfy it, the loop stops and item is appended. -/
theorem push_by_loop_step (q : MonotonicQueue T) (item : T) (is_less : T → T → Bool) :
    (q.dq = [] → (q.push_by item is_less).dq = [item]) ∧
    (∀ l b, q.dq = l ++ [b] → is_less b item = true →
      q.push_by item is_less = MonotonicQueue.push_by ⟨l⟩ item is_less) ∧
    (∀ l b, q.dq = l ++ [b] → is_less b item = false →
      (q.push_by item is_less).dq = q.dq ++ [item]) := by
  obtain ⟨dl⟩ := q
  refine ⟨?_, ?_, ?_⟩
  · intro h
    subst h
    rfl
  · intro l b hdq hb
    simp only at hdq
    subst hdq
    simp [MonotonicQueue.push_by, popBackWhile, hb]
  · intro l b hdq hb
    simp only at hdq
    subst hdq
    simp [MonotonicQueue.push_by, popBackWhile, hb]

theorem push_by_loop_step_witness :
    MonotonicQueue.push_by (⟨[3]⟩ : MonotonicQueue Nat) 2 (fun a b => decide (b < a))
      = MonotonicQueue.push_by ⟨[]⟩ 2 (fun a b => decide (b < a)) :=
  (push_by_loop_step ⟨[3]⟩ 2 (fun a b => decide (b < a))).2.1 [] 3 rfl (by decide)

/-- C3: a push_by call removes k elements from the back, where k is the
length of evictedBy (at most the old length), then appends exactly the one
item; the new length is exactly old length - k + 1. -/
theorem push_by_length (q : MonotonicQueue T) (item : T) (is_less : T → T → Bool) :
    (evictedBy q item is_less).length ≤ q.dq.length ∧
    (q.push_by item is_less).dq
      = q.dq.take (q.dq.length - (evictedBy q item is_less).length) ++ [item] ∧
    (q.push_by item is_less).dq.length
      = q.dq.length - (evictedBy q item is_less).length + 1 := by
  have hsplit := List.takeWhile_append_dropWhile (fun b => is_less b item) q.dq.reverse
  have hlen : (q.dq.reverse.takeWhile (fun b => is_less b item)).length
      + (q.dq.reverse.dropWhile (fun b => is_less b item)).length = q.dq.length := by
    have h1 := congrArg List.length hsplit
    simp only [List.length_append, List.length_reverse] at h1
    exact h1
  have hq : (q.dq.reverse.dropWhile (fun b => is_less b item)).reverse
      ++ (q.dq.reverse.takeWhile (fun b => is_less b item)).reverse = q.dq := by
    have h2 := congrArg List.reverse hsplit
    simp only [List.reverse_append, List.reverse_reverse] at h2
    exact h2
  have hk : (evictedBy q item is_less).length ≤ q.dq.length := by
    rw [evictedBy]
    omega
  refine ⟨hk, ?_, ?_⟩
  · rw [push_by_dq, evictedBy]
    congr 1
    have h1 : (q.dq.reverse.dropWhile (fun b => is_less b item)).reverse.length
        = q.dq.length - (q.dq.reverse.takeWhile (fun b => is_less b item)).length := by
      rw [List.length_reverse]
      omega
    have h2 := @List.take_left' T
      (q.dq.reverse.dropWhile (fun b => is_less b item)).reverse
      (q.dq.reverse.takeWhile (fun b => is_less b item)).reverse
      (q.dq.length - (q.dq.reverse.takeWhile (fun b => is_less b item)).length) h1
    rw [hq] at h2
    exact h2.symm
  · rw [push_by_dq, evictedBy]
    simp only [List.length_append, List.length_reverse, List.length_cons,
      List.length_nil]
    omega

/-- C10: the eviction loop of push_by terminates after at most length-of-
queue iterations: each iteration removes one element, so the number of
evicted elements is at most the deque length and the loop leaves exactly
length - evicted elements. -/
theorem push_by_loop_bound (q : MonotonicQueue T) (item : T) (is_less : T → T → Bool) :
    (evictedBy q item is_less).length ≤ q.dq.length ∧
    (popBackWhile is_less item q.dq.reverse).length
      = q.dq.length - (evictedBy q item is_less).length := by
  have hsplit := List.takeWhile_append_dropWhile (fun b => is_less b item) q.dq.reverse
  have hlen : (q.dq.reverse.takeWhile (fun b => is_less b item)).length
      + (q.dq.reverse.dropWhile (fun b => is_less b item)).length = q.dq.length := by
    have h1 := congrArg List.length hsplit
    simp only [List.length_append, List.length_reverse] at h1
    exact h1
  constructor
  · rw [evictedBy]
    omega
  · rw [popBackWhile_eq_dropWhile, evictedBy]
    omega

/-- Lift a predicate on values to index-tagged values, ignoring the tag. -/
def liftPred (is_less : T → T → Bool) : Nat × T → Nat × T → Bool :=
  fun a b => is_less a.2 b.2

/-- Run a sequence of push_by calls (each with its own predicate) on a queue
of index-tagged values, numbering the pushes consecutively from i and
accumulating every evicted element into a log. -/
def runPushesAux : Nat → MonotonicQueue (Nat × T) → List (Nat × T) →
    List ((T → T → Bool) × T) → MonotonicQueue (Nat × T) × List (Nat × T)
  | _, q, log, [] => (q, log)
  | i, q, log, p :: rest =>
    runPushesAux (i + 1) (q.push_by (i, p.2) (liftPred p.1))
      (log ++ evictedBy q (i, p.2) (liftPred p.1)) rest

/-- Run a sequence of push_by calls from the empty queue, tagging the n-th
pushed value with index n and logging every eviction. -/
def runPushes (ps : List ((T → T → Bool) × T)) :
    MonotonicQueue (Nat × T) × List (Nat × T) :=
  runPushesAux 0 (MonotonicQueue.new (Nat × T)) [] ps

/-- One push_by call conserves elements: the new deque together with the
evicted elements is a permutation of the item plus the old deque. -/
theorem push_by_perm (q : MonotonicQueue T) (item : T) (is_less : T → T → Bool) :
    ((q.push_by item is_less).dq ++ evictedBy q item is_less).Perm (item :: q.dq) := by
  rw [← Multiset.coe_eq_coe, push_by_dq, evictedBy]
  have hsplit := List.takeWhile_append_dropWhile (fun b => is_less b item) q.dq.reverse
  have hcoe : ((q.dq.reverse.takeWhile (fun b => is_less b item) : List T) : Multiset T)
      + ((q.dq.reverse.dropWhile (fun b => is_less b item) : List T) : Multiset T)
      = ((q.dq : List T) : Multiset T) := by
    rw [Multiset.coe_add, hsplit, Multiset.coe_reverse]
  have hrhs : ((item :: q.dq : List T) : Multiset T) = {item} + ↑q.dq := by
    rw [← Multiset.cons_coe, Multiset.singleton_add]
  rw [← Multiset.coe_add, ← Multiset.coe_add, hrhs, Multiset.coe_reverse,
    Multiset.coe_singleton, ← hcoe]
  abel

/-- Index accounting for a run of pushes: the indices in the final deque and
eviction log are exactly those already present plus one fresh index per
push, as multisets. -/
theorem runPushesAux_fst (ps : List ((T → T → Bool) × T)) :
    ∀ (i : Nat) (q : MonotonicQueue (Nat × T)) (log : List (Nat × T)),
    (((runPushesAux i q log ps).1.dq.map Prod.fst : List Nat) : Multiset Nat)
      + (((runPushesAux i q log ps).2.map Prod.fst : List Nat) : Multiset Nat)
      = ((q.dq.map Prod.fst : List Nat) : Multiset Nat)
        + ((log.map Prod.fst : List Nat) : Multiset Nat)
        + ((List.range' i ps.length : List Nat) : Multiset Nat) := by
  induction ps with
  | nil =>
    intro i q log
    simp [runPushesAux]
  | cons p rest ih =>
    intro i q log
    simp only [runPushesAux]
    rw [ih]
    have hperm := (push_by_perm q (i, p.2) (liftPred p.1)).map Prod.fst
    have hkey : (((q.push_by (i, p.2) (liftPred p.1)).dq.map Prod.fst
          : List Nat) : Multiset Nat)
        + (((evictedBy q (i, p.2) (liftPred p.1)).map Prod.fst : List Nat) : Multiset Nat)
        = {i} + ((q.dq.map Prod.fst : List Nat) : Multiset Nat) := by
      rw [Multiset.coe_add, ← List.map_append, Multiset.coe_eq_coe.mpr hperm,
        List.map_cons, ← Multiset.cons_coe, Multiset.singleton_add]
    have hstep : ∀ A B C D Ri : Multiset Nat, A + C = {i} + D →
        A + (B + C) + Ri = D + B + ({i} + Ri) := by
      intro A B C D Ri hACD
      calc A + (B + C) + Ri = A + C + B + Ri := by abel
        _ = {i} + D + B + Ri := by rw [hACD]
        _ = D + B + ({i} + Ri) := by abel
    simp only [List.map_append, ← Multiset.coe_add, List.length_cons, List.range'_succ,
      ← Multiset.cons_coe, ← Multiset.singleton_add]
    exact hstep _ _ _ _ _ hkey

/-- C4: across any sequence of n push_by calls starting from the empty
queue (each call may use its own predicate), the total number of elements
evicted over all calls is at most n minus the final queue length, and no
pushed element (identified by its push index) is evicted more than once. -/
theorem bounded_eviction (ps : List ((T → T → Bool) × T)) :
    (runPushes ps).2.length ≤ ps.length - (runPushes ps).1.dq.length ∧
    ((runPushes ps).2.map Prod.fst).Nodup := by
  rw [runPushes]
  simp only [MonotonicQueue.new]
  have h := runPushesAux_fst ps 0 (MonotonicQueue.new (Nat × T)) []
  simp only [MonotonicQueue.new, List.map_nil, Multiset.coe_nil, add_zero, zero_add] at h
  rw [← List.range_eq_range'] at h
  constructor
  · have hlen := congrArg Multiset.card h
    simp only [Multiset.card_add, Multiset.coe_card, List.length_map,
      List.length_range] at hlen
    omega
  · have hnodup : Multiset.Nodup
        ((((runPushesAux 0 (⟨[]⟩ : MonotonicQueue (Nat × T)) [] ps).1.dq.map Prod.fst
            : List Nat) : Multiset Nat)
          + (((runPushesAux 0 (⟨[]⟩ : MonotonicQueue (Nat × T)) [] ps).2.map Prod.fst
            : List Nat) : Multiset Nat)) := by
      rw [h]
      exact Multiset.coe_nodup.mpr (List.nodup_range ps.length)
    rw [Multiset.coe_add, Multiset.coe_nodup] at hnodup
    exact hnodup.of_append_right

/-- The greater-than predicate on Nat, used as is_less in Scenario C. -/
def gtNat : Nat → Nat → Bool :=
  fun a b => decide (b < a)

/-- C8: pushing 5, 3, 4, 6, 7 with the greater-than predicate yields the
front-to-back sequence 3, 4, 6, 7; the 5 is evicted when 3 arrives (the
queue is just the 3 after the second push) and, per the indexed run, the
element pushed first (value 5, index 0) is the only one ever evicted. -/
theorem scenario_c :
    ((((((MonotonicQueue.new Nat).push_by 5 gtNat).push_by 3 gtNat).push_by 4
      gtNat).push_by 6 gtNat).push_by 7 gtNat).dq = [3, 4, 6, 7]
    ∧ (((MonotonicQueue.new Nat).push_by 5 gtNat).push_by 3 gtNat).dq = [3]
    ∧ (runPushes [(gtNat, 5), (gtNat, 3), (gtNat, 4), (gtNat, 6), (gtNat, 7)]).1.dq
        = [(1, 3), (2, 4), (3, 6), (4, 7)]
    ∧ (runPushes [(gtNat, 5), (gtNat, 3), (gtNat, 4), (gtNat, 6), (gtNat, 7)]).2
        = [(0, 5)] :=
  ⟨rfl, rfl, rfl, rfl⟩
